import Mathlib

/-!
Verification development for the free-chat streaming-response core.

The repository's core consists of two components:

* the stream demultiplexer `streamChat` (an async generator in the
  OpenRouter service class) that turns provider events into a single
  logical token stream in which reasoning spans are wrapped in
  `<think>` / `</think>` markers, and
* the incremental content parser (the `useMemo` body of
  `MarkdownRenderer`) that splits accumulated text into reasoning,
  visible body, extracted search activities and a status label.

Both are embedded below as executable Lean functions over `List Char`
(the shallow embedding of JavaScript strings; the inputs of interest
are ASCII, where JS UTF-16 lengths agree with `List.length`).
Regex-driven scans in the source are embedded as explicit left-to-right
scanners that advance one character on a failed match attempt and
consume the whole match on success, exactly as the JavaScript regex
engine with the `g` flag does for these specific patterns (each pattern
used by the source is deterministic: its greedy character classes admit
no productive backtracking).
-/

namespace FreeChat

/-- Double-quote character (ASCII 34). -/
def dquote : Char := Char.ofNat 34

/-- Single-quote character (ASCII 39). -/
def squote : Char := Char.ofNat 39

/-- JavaScript `\s` for the ASCII range, also the set trimmed by
`String.prototype.trim` on ASCII input: space, tab, LF, VT, FF, CR. -/
def isWs (c : Char) : Bool :=
  c = ' ' || c = '\t' || c = '\n' || c = Char.ofNat 11 || c = Char.ofNat 12 || c = '\r'

/-- `String.prototype.trim`: drop leading and trailing whitespace. -/
def trimWs (l : List Char) : List Char :=
  ((l.dropWhile isWs).reverse.dropWhile isWs).reverse

/-- Boolean list-prefix test (`m` begins `l`). -/
def listPre : List Char → List Char → Bool
  | [], _ => true
  | _ :: _, [] => false
  | a :: as, b :: bs => a = b && listPre as bs

/-- Leftmost occurrence of the non-empty literal `m` in `l`:
`some (pre, post)` with `l = pre ++ m ++ post`, `none` if `m` does not
occur.  This is JS `String.indexOf` / the scan for a literal regex
part. -/
def splitMarker (m : List Char) : List Char → Option (List Char × List Char)
  | [] => none
  | c :: rest =>
    if listPre m (c :: rest) then some ([], (c :: rest).drop m.length)
    else
      match splitMarker m rest with
      | some (pre, post) => some (c :: pre, post)
      | none => none

/-- `m` occurs as a contiguous substring of `l`. -/
def occurs (m l : List Char) : Bool := (splitMarker m l).isSome

/-- The opening reasoning marker emitted by the demultiplexer. -/
def thinkOpen : List Char := "<think>".data

/-- The closing reasoning marker emitted by the demultiplexer. -/
def thinkClose : List Char := "</think>".data

/-! ## Stream demultiplexer (`OpenRouterService.streamChat`)

One provider event, as seen by the `for (const line of lines)` body:
after the `data: ` strip a line is either the `[DONE]` sentinel, a JSON
record whose `choices[0].delta` carries optional `reasoning` and
`content` strings, or an unparseable record (`JSON.parse` throws and the
event is skipped).  Non-`data:` lines and blank lines are skipped before
that and are covered by `malformed` as well.  A missing or empty delta
field is falsy in JS, so both are embedded as the empty list. -/
inductive SSEvent where
  | data (reasoning content : List Char)
  | malformed
  | done
deriving DecidableEq, Repr

/-- Tokens yielded by `streamChat` for an event list, starting from
reasoning-state `r` (the generator's `isReasoning`, initially `false`).
Mirrors the source loop: `[DONE]` returns at once (skipping the
trailing cleanup), malformed events are skipped by the `catch`, a
non-empty `reasoning` delta opens a span if one is not open, a
non-empty `content` delta closes an open span, and only the natural end
of the event list runs the `if (isReasoning) yield '</think>'`
cleanup.  The source's two sequential `if` blocks (reasoning first,
then content, threading `isReasoning`) are expanded here into the four
emptiness cases. -/
def streamTokens : List SSEvent → Bool → List (List Char)
  | [], r => if r then [thinkClose] else []
  | SSEvent.done :: _, _ => []
  | SSEvent.malformed :: evs, r => streamTokens evs r
  | SSEvent.data rs cs :: evs, r =>
    if rs.isEmpty then
      if cs.isEmpty then streamTokens evs r
      else if r then thinkClose :: cs :: streamTokens evs false
      else cs :: streamTokens evs false
    else
      if cs.isEmpty then
        if r then rs :: streamTokens evs true
        else thinkOpen :: rs :: streamTokens evs true
      else
        if r then rs :: thinkClose :: cs :: streamTokens evs false
        else thinkOpen :: rs :: thinkClose :: cs :: streamTokens evs false

/-- Scan a token list, tracking whether a reasoning span is open:
an emitted `<think>` opens, an emitted `</think>` closes. -/
def openAfter (toks : List (List Char)) (r : Bool) : Bool :=
  toks.foldl (fun st t => if t = thinkOpen then true else if t = thinkClose then false else st) r

/-- A data event whose deltas are not themselves marker strings, so that
token-level span tracking coincides with string-level span tracking. -/
def eventClean : SSEvent → Prop
  | SSEvent.data rs cs =>
      rs ≠ thinkOpen ∧ rs ≠ thinkClose ∧ cs ≠ thinkOpen ∧ cs ≠ thinkClose
  | _ => True

/-- A reasoning-only event (`delta.reasoning` set, no `delta.content`). -/
def mkR (r : List Char) : SSEvent := SSEvent.data r []

/-- A content-only event (`delta.content` set, no `delta.reasoning`). -/
def mkC (c : List Char) : SSEvent := SSEvent.data [] c

/-! ## Incremental content parser (`MarkdownRenderer` `useMemo` body)

The parser pipeline applied to the accumulated `content` string:
citation unwrapping, `<think>` span extraction, leaked tool-call
extraction, structured activity scanning with global de-duplication,
bare-URL fallback, status-label derivation.  The regex scanners are
given as fuel-indexed recursions (fuel bounds the number of scan steps;
the wrappers supply `l.length`, which is always sufficient because
every step strictly consumes input). -/

/-- The leaked tool-call start marker `<|start|>`. -/
def leakOpen : List Char := "<|start|>".data

/-- A blank line (the terminator of a leaked tool-call span). -/
def nlnl : List Char := "\n\n".data

/-- The literal `"query":` of the structured query marker. -/
def queryKey : List Char := "\"query\":".data

/-- The literal `"url":` of the structured URL marker. -/
def urlKey : List Char := "\"url\":".data

/-- Strip a `https://` or `http://` scheme, returning the matched
scheme characters and the remainder (the two literals cannot both
match, so the order of the tests does not matter). -/
def stripScheme (l : List Char) : Option (List Char × List Char) :=
  if listPre "https://".data l then some ("https://".data, l.drop 8)
  else if listPre "http://".data l then some ("http://".data, l.drop 7)
  else none

/-- Character class `[^\s)]` of the bare-citation URL token. -/
def cite1Tok (c : Char) : Bool := !(isWs c || c = ')')

/-- One match attempt of `/\(\s*(https?:\/\/[^\s\)]+)\s*\)/` at the head
of `l`: on success, the replacement `' $1 '` and the remainder after the
match. -/
def tryCite1 : List Char → Option (List Char × List Char)
  | [] => none
  | c :: r1 =>
    if c = '(' then
      match stripScheme (r1.dropWhile isWs) with
      | none => none
      | some (sch, r3) =>
        if r3.takeWhile cite1Tok = [] then none
        else
          match (r3.drop (r3.takeWhile cite1Tok).length).dropWhile isWs with
          | ')' :: rem => some (' ' :: (sch ++ r3.takeWhile cite1Tok) ++ [' '], rem)
          | _ => none
    else none

/-- One match attempt of `/\(\s*(\[[^\]]+\]\([^\)]+\))\s*\)/` at the
head of `l`. -/
def tryCite2 : List Char → Option (List Char × List Char)
  | [] => none
  | c :: r1 =>
    if c = '(' then
      match r1.dropWhile isWs with
      | '[' :: r3 =>
        if r3.takeWhile (fun x => !(x = ']')) = [] then none
        else
          match r3.drop (r3.takeWhile (fun x => !(x = ']'))).length with
          | ']' :: '(' :: r5 =>
            if r5.takeWhile (fun x => !(x = ')')) = [] then none
            else
              match r5.drop (r5.takeWhile (fun x => !(x = ')'))).length with
              | ')' :: r7 =>
                match r7.dropWhile isWs with
                | ')' :: rem =>
                  some (' ' :: ('[' :: r3.takeWhile (fun x => !(x = ']')) ++
                    ']' :: '(' :: r5.takeWhile (fun x => !(x = ')')) ++ [')']) ++ [' '], rem)
                | _ => none
              | _ => none
          | _ => none
      | _ => none
    else none

/-- Global-replace scan: at each position attempt `tm`; on success emit
the replacement and continue after the match, otherwise copy one
character — exactly `String.replace` with a `g`-flagged regex. -/
def citePassF (tm : List Char → Option (List Char × List Char)) :
    Nat → List Char → List Char
  | 0, l => l
  | _ + 1, [] => []
  | n + 1, c :: rest =>
    match tm (c :: rest) with
    | some (rep, rem) => rep ++ citePassF tm n rem
    | none => c :: citePassF tm n rest

/-- First citation pass (`citationLinkRegex`). -/
def citePass1 (l : List Char) : List Char := citePassF tryCite1 l.length l

/-- Second citation pass (`citationMarkdownRegex`). -/
def citePass2 (l : List Char) : List Char := citePassF tryCite2 l.length l

/-- Step 0 of the parser: both citation replacements in source order. -/
def citeUnwrap (l : List Char) : List Char := citePass2 (citePass1 l)

/-- `/<think>([\s\S]*?)(?:<\/think>|$)/g` with the callback that removes
each match and pushes its group: returns the remaining visible text and
the captured groups in order.  An unterminated opening marker captures
through end-of-text. -/
def extractThinkF : Nat → List Char → List Char × List (List Char)
  | 0, l => (l, [])
  | n + 1, l =>
    match splitMarker thinkOpen l with
    | none => (l, [])
    | some (pre, post) =>
      match splitMarker thinkClose post with
      | none => (pre, [post])
      | some (grp, rest) =>
        let pr := extractThinkF n rest
        (pre ++ pr.1, grp :: pr.2)

/-- Wrapper of `extractThinkF` at sufficient fuel. -/
def extractThink (l : List Char) : List Char × List (List Char) :=
  extractThinkF l.length l

/-- `/<\|start\|>[\s\S]*?(?:\n\n|$)/g` with the callback that removes
each match and pushes the whole trimmed match (marker text included). -/
def extractLeakF : Nat → List Char → List Char × List (List Char)
  | 0, l => (l, [])
  | n + 1, l =>
    match splitMarker leakOpen l with
    | none => (l, [])
    | some (pre, post) =>
      match splitMarker nlnl post with
      | none => (pre, [trimWs (leakOpen ++ post)])
      | some (body, rest) =>
        let pr := extractLeakF n rest
        (pre ++ pr.1, trimWs (leakOpen ++ body ++ nlnl) :: pr.2)

/-- Wrapper of `extractLeakF` at sufficient fuel. -/
def extractLeak (l : List Char) : List Char × List (List Char) :=
  extractLeakF l.length l

/-- All matches of `/"<key>":\s*"([^"]+)"/g` in order.  A failed tail
(no opening quote, empty value, or no closing quote) resumes after the
key occurrence, which agrees with the JS engine's resume-at-next-index
because the key literal cannot overlap itself and every match starts
with the key. -/
def kvScanF (key : List Char) : Nat → List Char → List (List Char)
  | 0, _ => []
  | n + 1, l =>
    match splitMarker key l with
    | none => []
    | some (_, post) =>
      match post.dropWhile isWs with
      | c :: p3 =>
        if c = dquote then
          let v := p3.takeWhile (fun x => x ≠ dquote)
          if v.isEmpty then kvScanF key n post
          else
            match p3.drop v.length with
            | c2 :: p5 =>
              if c2 = dquote then v :: kvScanF key n p5 else kvScanF key n post
            | [] => kvScanF key n post
        else kvScanF key n post
      | [] => kvScanF key n post

/-- Wrapper of `kvScanF` at sufficient fuel. -/
def kvScan (key l : List Char) : List (List Char) := kvScanF key l.length l

/-- Character class `[^\s<)"']` of the bare-URL token. -/
def httpTok (c : Char) : Bool :=
  !(isWs c || c = '<' || c = ')' || c = dquote || c = squote)

/-- After the literal `http`: the optional `s` and the mandatory `://`
(if the `s` branch fails on `://`, the branch without `s` cannot match
either, so no backtracking is needed). -/
def stripAfterHttp (l : List Char) : Option (List Char × List Char) :=
  match l with
  | 's' :: r => if listPre "://".data r then some ("s://".data, r.drop 3) else none
  | r => if listPre "://".data r then some ("://".data, r.drop 3) else none

/-- All matches of `/(https?:\/\/[^\s<)"']+)/g` in order. -/
def httpScanF : Nat → List Char → List (List Char)
  | 0, _ => []
  | n + 1, l =>
    match splitMarker "http".data l with
    | none => []
    | some (_, post) =>
      match stripAfterHttp post with
      | none => httpScanF n post
      | some (sfx, r2) =>
        let tok := r2.takeWhile httpTok
        if tok.isEmpty then httpScanF n post
        else ("http".data ++ sfx ++ tok) :: httpScanF n (r2.drop tok.length)

/-- Wrapper of `httpScanF` at sufficient fuel. -/
def httpScan (l : List Char) : List (List Char) := httpScanF l.length l

/-- Activity kind (`SearchAction.type` in the source). -/
inductive AKind where
  | query
  | url
deriving DecidableEq, Repr, BEq

/-- One extracted activity.  The source's render-key `id` field is a
presentation artifact (`q-…`/`u-…` index strings) and carries no
information used by the pipeline, so it is omitted here. -/
structure SAction where
  kind : AKind
  content : List Char
deriving DecidableEq, Repr

/-- `if (!seenContent.has(v)) { seenContent.add(v); push({kind, v}) }` —
the state is the built action list together with the seen set
(insertion-ordered, which is irrelevant for membership). -/
def pushIfNew (st : List SAction × List (List Char)) (k : AKind) (v : List Char) :
    List SAction × List (List Char) :=
  if v ∈ st.2 then st else (st.1 ++ [⟨k, v⟩], st.2 ++ [v])

/-- The structured phase: all query matches, then all URL matches, with
global first-occurrence de-duplication. -/
def structuredState (ft : List Char) : List SAction × List (List Char) :=
  let st0 := (kvScan queryKey ft).foldl (fun st v => pushIfNew st AKind.query v) ([], [])
  (kvScan urlKey ft).foldl (fun st v => pushIfNew st AKind.url v) st0

/-- Activity extraction over the reasoning buffer: the structured phase,
then the bare-URL fallback, which runs only when the buffer is non-empty
and the structured phase produced no url-kind action; a fallback
candidate is kept when unseen, not containing `localhost`, and longer
than 10 characters. -/
def extractActions (ft : List Char) : List SAction :=
  let st1 := structuredState ft
  if 0 < ft.length ∧ (st1.1.filter (fun a => a.kind == AKind.url)).length = 0 then
    ((httpScan ft).foldl
      (fun st v =>
        if occurs "localhost".data v || !(decide (10 < v.length)) then st
        else pushIfNew st AKind.url v)
      st1).1
  else st1.1

/-- Modelled browser API: `new URL(u).hostname`.  Full `WHATWG` URL
parsing (scheme case folding, non-special schemes, IDNA and IPv4 host
normalisation, forbidden host code points, percent decoding) is outside
the scope of this development; this model is faithful to the browser
exactly on the envelope the label theorems restrict themselves to:

* inputs of the form `http://` or `https://` (lowercase), followed by a
  non-empty host of lowercase ASCII letters, `.` and `-` (`urlHostOk`),
  followed by nothing or by a `/`, `?` or `#` delimiter (`urlRestOk`) —
  the browser returns that host verbatim (already lowercase; a host
  with an alphabetic final label undergoes no IPv4 normalisation and
  ASCII lowercase labels pass domain-to-ASCII unchanged);
* inputs containing no `:` at all — `new URL` always throws on them
  (no scheme and no base), the `catch` case.

Outside this envelope the function is a placeholder and no theorem
relies on its value. -/
def urlHostname (l : List Char) : Option (List Char) :=
  match stripScheme l with
  | none => none
  | some (_, rest) =>
    let auth := rest.takeWhile (fun c => !(c = '/' || c = '?' || c = '#'))
    let hostPort := (auth.reverse.takeWhile (fun c => c ≠ '@')).reverse
    let host := hostPort.takeWhile (fun c => c ≠ ':')
    if host.isEmpty then none else some (host.map Char.toLower)

/-- `hostname.replace(/^www\./, '')`: strip one leading `www.`. -/
def stripWww (h : List Char) : List Char :=
  if listPre "www.".data h then h.drop 4 else h

/-- `getDomain`: hostname with one leading `www.` stripped; the `catch`
branch returns the literal `'web'`. -/
def getDomain (l : List Char) : List Char :=
  match urlHostname l with
  | some h => stripWww h
  | none => "web".data

/-- The live status label for a query activity. -/
def labelQuery (v : List Char) : List Char :=
  "Searching Google for ".data ++ [dquote] ++ v ++ [dquote]

/-- The live status label for a url activity. -/
def labelUrl (v : List Char) : List Char :=
  "Reading content from ".data ++ getDomain v ++ "...".data

/-- Status-label derivation: live with at least one activity describes
the last activity; live with none is the generic label; not live is the
static completed label. -/
def activeLabel (isThinking : Bool) (acts : List SAction) : List Char :=
  if isThinking then
    match acts.getLast? with
    | some a =>
      match a.kind with
      | AKind.query => labelQuery a.content
      | AKind.url => labelUrl a.content
    | none => "Thinking Process".data
  else "Thought Process".data

/-- `Array.prototype.join` with a separator. -/
def joinSep (sep : List Char) : List (List Char) → List Char
  | [] => []
  | [x] => x
  | x :: xs => x ++ sep ++ joinSep sep xs

/-- The parser output (`{ thought, main, searchActions, activeAction }`). -/
structure Parsed where
  thought : List Char
  main : List Char
  searchActions : List SAction
  activeAction : List Char
deriving DecidableEq, Repr

/-- The whole parser: citation unwrapping, `<think>` extraction, leaked
tool-call extraction (on the remaining visible text, its captures
appended after the think groups), the joined-and-trimmed reasoning
buffer, activity extraction over that buffer, and the status label. -/
def parseContent (content : List Char) (isThinking : Bool) : Parsed :=
  let m0 := citeUnwrap content
  let p1 := extractThink m0
  let p2 := extractLeak p1.1
  let fullThought := trimWs (joinSep nlnl (p1.2 ++ p2.2))
  let acts := extractActions fullThought
  { thought := fullThought
    main := trimWs p2.1
    searchActions := acts
    activeAction := activeLabel isThinking acts }

/-! ## Supporting lemmas -/

theorem listPre_iff (m l : List Char) : listPre m l = true ↔ ∃ t, l = m ++ t := by
  induction m generalizing l with
  | nil => simp [listPre]
  | cons a as ih =>
    cases l with
    | nil => simp [listPre]
    | cons b bs =>
      simp only [listPre, Bool.and_eq_true, decide_eq_true_eq, ih, List.cons_append,
        List.cons.injEq]
      constructor
      · rintro ⟨rfl, t, rfl⟩; exact ⟨t, rfl, rfl⟩
      · rintro ⟨t, rfl, rfl⟩; exact ⟨rfl, t, rfl⟩

theorem listPre_append_self (m t : List Char) : listPre m (m ++ t) = true :=
  (listPre_iff m (m ++ t)).mpr ⟨t, rfl⟩

theorem splitMarker_head_zero (m t : List Char) (hm : m ≠ []) :
    splitMarker m (m ++ t) = some ([], t) := by
  cases m with
  | nil => exact absurd rfl hm
  | cons a as =>
    rw [List.cons_append, splitMarker, if_pos]
    · simp
    · exact listPre_append_self (a :: as) t

theorem splitMarker_none_of_head (c : Char) (m' l : List Char) (h : c ∉ l) :
    splitMarker (c :: m') l = none := by
  induction l with
  | nil => rfl
  | cons b bs ih =>
    have hb : c ≠ b := fun hcb => h (hcb ▸ List.mem_cons_self b bs)
    have hpre : listPre (c :: m') (b :: bs) = false := by
      simp [listPre, hb]
    rw [splitMarker, if_neg (by simp [hpre]),
      ih (fun hmem => h (List.mem_cons_of_mem b hmem))]

theorem splitMarker_clean_left (c : Char) (m' A B : List Char) (h : c ∉ A) :
    splitMarker (c :: m') (A ++ (c :: m') ++ B) = some (A, B) := by
  induction A with
  | nil => simpa using splitMarker_head_zero (c :: m') B (by simp)
  | cons a as ih =>
    have ha : c ≠ a := fun hca => h (hca ▸ List.mem_cons_self a as)
    rw [List.cons_append, List.cons_append, splitMarker, if_neg (by simp [listPre, ha])]
    have := ih (fun hmem => h (List.mem_cons_of_mem a hmem))
    simp only [List.cons_append] at this ⊢
    rw [this]

theorem occurs_of_splitMarker {m l pre post : List Char}
    (h : splitMarker m l = some (pre, post)) : occurs m l = true := by
  simp [occurs, h]

theorem splitMarker_decomp (m : List Char) :
    ∀ l pre post, splitMarker m l = some (pre, post) → l = pre ++ m ++ post := by
  intro l
  induction l with
  | nil => intro pre post h; simp [splitMarker] at h
  | cons b bs ih =>
    intro pre post h
    rw [splitMarker] at h
    by_cases hpre : listPre m (b :: bs) = true
    · rw [if_pos hpre] at h
      obtain ⟨t, ht⟩ := (listPre_iff m (b :: bs)).mp hpre
      simp only [Option.some.injEq, Prod.mk.injEq] at h
      obtain ⟨h1, h2⟩ := h
      subst h1
      subst h2
      rw [ht, List.drop_left]
      simp
    · rw [if_neg hpre] at h
      cases hsm : splitMarker m bs with
      | none => rw [hsm] at h; simp at h
      | some pp =>
        obtain ⟨p1, p2⟩ := pp
        rw [hsm] at h
        simp only [Option.some.injEq, Prod.mk.injEq] at h
        obtain ⟨h1, h2⟩ := h
        rw [← h2, ← h1]
        have := ih p1 p2 hsm
        simp [this]

theorem splitMarker_ne_nil {m l pre post : List Char}
    (h : splitMarker m l = some (pre, post)) : l ≠ [] := by
  intro hl
  subst hl
  simp [splitMarker] at h

theorem length_succ_of_ne_nil {l : List Char} (h : l ≠ []) :
    ∃ k, l.length = k + 1 := by
  cases l with
  | nil => exact absurd rfl h
  | cons a as => exact ⟨as.length, rfl⟩

theorem trimWs_cons (c : Char) (x : List Char) (h : isWs c = false) :
    trimWs (c :: x) = c :: (x.reverse.dropWhile isWs).reverse := by
  have h1 : List.dropWhile isWs (c :: x) = c :: x := by
    rw [List.dropWhile_cons_of_neg (by simp [h])]
  have h2 : List.dropWhile isWs (x.reverse ++ [c]) = List.dropWhile isWs x.reverse ++ [c] := by
    cases hx : List.dropWhile isWs x.reverse with
    | nil =>
      have hall : ∀ a ∈ x.reverse, isWs a = true := by
        simpa using (List.dropWhile_eq_nil_iff).mp hx
      rw [List.dropWhile_append]
      simp [hx, h, hall]
    | cons d ds =>
      rw [List.dropWhile_append]
      simp [hx]
  rw [trimWs, h1, List.reverse_cons, h2, List.reverse_append]
  simp

theorem trimWs_cons_ne_nil (c : Char) (x : List Char) (h : isWs c = false) :
    trimWs (c :: x) ≠ [] := by
  rw [trimWs_cons c x h]
  simp

/-! ### Extraction identities -/

theorem extractThinkF_no_marker (n : Nat) (l : List Char)
    (h : splitMarker thinkOpen l = none) : extractThinkF n l = (l, []) := by
  cases n with
  | zero => rfl
  | succ n => rw [extractThinkF, h]

theorem extractThink_no_marker (l : List Char)
    (h : splitMarker thinkOpen l = none) : extractThink l = (l, []) :=
  extractThinkF_no_marker l.length l h

theorem extractLeakF_no_marker (n : Nat) (l : List Char)
    (h : splitMarker leakOpen l = none) : extractLeakF n l = (l, []) := by
  cases n with
  | zero => rfl
  | succ n => rw [extractLeakF, h]

theorem extractLeak_no_marker (l : List Char)
    (h : splitMarker leakOpen l = none) : extractLeak l = (l, []) :=
  extractLeakF_no_marker l.length l h

theorem thinkOpen_cons : thinkOpen = '<' :: "think>".data := by decide

theorem thinkClose_cons : thinkClose = '<' :: "/think>".data := by decide

theorem leakOpen_cons : leakOpen = '<' :: "|start|>".data := by decide

theorem splitMarker_thinkOpen_none (l : List Char) (h : '<' ∉ l) :
    splitMarker thinkOpen l = none := by
  rw [thinkOpen_cons]
  exact splitMarker_none_of_head _ _ _ h

theorem splitMarker_thinkClose_none (l : List Char) (h : '<' ∉ l) :
    splitMarker thinkClose l = none := by
  rw [thinkClose_cons]
  exact splitMarker_none_of_head _ _ _ h

theorem splitMarker_leakOpen_none (l : List Char) (h : '<' ∉ l) :
    splitMarker leakOpen l = none := by
  rw [leakOpen_cons]
  exact splitMarker_none_of_head _ _ _ h

/-- A balanced `<think>R</think>C` with marker-free `R` and `C` splits
into visible `C` and the single captured group `R`. -/
theorem extractThinkF_shape (n : Nat) (R C : List Char)
    (hR : '<' ∉ R) (hC : '<' ∉ C) :
    extractThinkF (n + 1) (thinkOpen ++ (R ++ (thinkClose ++ C))) = (C, [R]) := by
  have h1 : splitMarker thinkOpen (thinkOpen ++ (R ++ (thinkClose ++ C))) =
      some ([], R ++ (thinkClose ++ C)) :=
    splitMarker_head_zero _ _ (by decide)
  have h2 : splitMarker thinkClose (R ++ (thinkClose ++ C)) = some (R, C) := by
    rw [thinkClose_cons]
    have := splitMarker_clean_left '<' "/think>".data R C hR
    simpa [List.append_assoc] using this
  rw [extractThinkF, h1]
  simp only [h2, extractThinkF_no_marker n C (splitMarker_thinkOpen_none C hC),
    List.nil_append]

theorem extractThink_shape (R C : List Char) (hR : '<' ∉ R) (hC : '<' ∉ C) :
    extractThink (thinkOpen ++ (R ++ (thinkClose ++ C))) = (C, [R]) := by
  obtain ⟨k, hk⟩ := length_succ_of_ne_nil
    (show thinkOpen ++ (R ++ (thinkClose ++ C)) ≠ [] from by simp [thinkOpen])
  rw [extractThink, hk]
  exact extractThinkF_shape k R C hR hC

/-! ### Citation-pass identities -/

theorem tryCite1_none_of_head (c : Char) (rest : List Char) (h : ¬ c = '(') :
    tryCite1 (c :: rest) = none := by
  simp [tryCite1, h]

theorem tryCite2_none_of_head (c : Char) (rest : List Char) (h : ¬ c = '(') :
    tryCite2 (c :: rest) = none := by
  simp [tryCite2, h]

theorem citePassF_id (tm : List Char → Option (List Char × List Char))
    (htm : ∀ c rest, ¬ c = '(' → tm (c :: rest) = none) :
    ∀ (n : Nat) (l : List Char), '(' ∉ l → citePassF tm n l = l := by
  intro n
  induction n with
  | zero => intro l _; rfl
  | succ n ih =>
    intro l h
    cases l with
    | nil => rfl
    | cons c rest =>
      have hc : ¬ c = '(' := fun hc => h (hc ▸ List.mem_cons_self c rest)
      rw [citePassF, htm c rest hc]
      exact congrArg (List.cons c) (ih rest (fun hm => h (List.mem_cons_of_mem c hm)))

theorem citeUnwrap_id (l : List Char) (h : '(' ∉ l) : citeUnwrap l = l := by
  rw [citeUnwrap, citePass1, citePassF_id tryCite1 tryCite1_none_of_head _ l h,
    citePass2, citePassF_id tryCite2 tryCite2_none_of_head _ l h]

theorem mem_of_dropWhile {p : Char → Bool} {X rest : List Char}
    (h : X.dropWhile p = rest) : ∀ c, c ∈ rest → c ∈ X := by
  intro c hc
  have hs : List.Sublist (X.dropWhile p) X := List.dropWhile_sublist p
  exact hs.subset (h ▸ hc)

theorem mem_of_takeWhile {p : Char → Bool} {X : List Char} :
    ∀ c, c ∈ X.takeWhile p → c ∈ X := by
  intro c hc
  have hs : List.Sublist (X.takeWhile p) X := List.takeWhile_sublist p
  exact hs.subset hc

theorem mem_of_drop {X : List Char} (k : Nat) : ∀ c, c ∈ X.drop k → c ∈ X := by
  intro c hc
  exact (List.drop_sublist k X).subset hc

theorem stripScheme_mem {l sch rest : List Char} (h : stripScheme l = some (sch, rest)) :
    ('<' ∈ sch → False) ∧ (∀ c, c ∈ rest → c ∈ l) := by
  unfold stripScheme at h
  split at h
  · simp only [Option.some.injEq, Prod.mk.injEq] at h
    obtain ⟨h1, h2⟩ := h
    subst h1; subst h2
    exact ⟨by decide, mem_of_drop 8⟩
  · split at h
    · simp only [Option.some.injEq, Prod.mk.injEq] at h
      obtain ⟨h1, h2⟩ := h
      subst h1; subst h2
      exact ⟨by decide, mem_of_drop 7⟩
    · simp at h

theorem tryCite1_mem {l rep rem : List Char} (h : tryCite1 l = some (rep, rem)) :
    ('<' ∈ rep → '<' ∈ l) ∧ (∀ c, c ∈ rem → c ∈ l) := by
  cases l with
  | nil => simp [tryCite1] at h
  | cons c r1 =>
    rw [tryCite1] at h
    split at h
    · rename_i hc
      subst hc
      have hsub1 : ∀ x, x ∈ r1.dropWhile isWs → x ∈ '(' :: r1 := by
        intro x hx
        exact List.mem_cons_of_mem _ (mem_of_dropWhile rfl x hx)
      split at h
      · simp at h
      · rename_i sch r3 heq
        obtain ⟨hsch, hr3⟩ := stripScheme_mem heq
        have hsub3 : ∀ x, x ∈ r3 → x ∈ '(' :: r1 := fun x hx => hsub1 x (hr3 x hx)
        split at h
        · simp at h
        · split at h
          · rename_i rem0 heq2
            simp only [Option.some.injEq, Prod.mk.injEq] at h
            obtain ⟨h1, h2⟩ := h
            subst h1; subst h2
            constructor
            · intro hlt
              simp only [List.cons_append, List.mem_cons, List.mem_append,
                List.mem_singleton] at hlt
              rcases hlt with h' | (h' | h') | h' | h'
              · exact absurd h' (by decide)
              · exact absurd (hsch h') id
              · exact hsub3 _ (mem_of_takeWhile _ h')
              · exact absurd h' (by decide)
              · exact absurd h' (List.not_mem_nil _)
            · intro x hx
              have hx2 : x ∈ (r3.drop (r3.takeWhile cite1Tok).length).dropWhile isWs :=
                heq2 ▸ List.mem_cons_of_mem _ hx
              exact hsub3 _ (mem_of_drop _ _ (mem_of_dropWhile rfl _ hx2))
          · simp at h
    · simp at h

theorem citePassF_no_lt (tm : List Char → Option (List Char × List Char))
    (htm : ∀ {l rep rem : List Char}, tm l = some (rep, rem) →
      ('<' ∈ rep → '<' ∈ l) ∧ (∀ c, c ∈ rem → c ∈ l)) :
    ∀ (n : Nat) (l : List Char), '<' ∉ l → '<' ∉ citePassF tm n l := by
  intro n
  induction n with
  | zero => intro l h; exact h
  | succ n ih =>
    intro l h
    cases l with
    | nil => simp [citePassF]
    | cons c rest =>
      cases htc : tm (c :: rest) with
      | some p =>
        obtain ⟨rep, rem⟩ := p
        obtain ⟨h1, h2⟩ := htm htc
        rw [citePassF, htc]
        intro hmem
        rcases List.mem_append.mp hmem with hm | hm
        · exact h (h1 hm)
        · exact ih rem (fun hr => h (h2 _ hr)) hm
      | none =>
        rw [citePassF, htc]
        intro hmem
        rcases List.mem_cons.mp hmem with hm | hm
        · exact h (hm ▸ List.mem_cons_self c rest)
        · exact ih rest (fun hr => h (List.mem_cons_of_mem c hr)) hm

theorem tryCite2_mem {l rep rem : List Char} (h : tryCite2 l = some (rep, rem)) :
    ('<' ∈ rep → '<' ∈ l) ∧ (∀ c, c ∈ rem → c ∈ l) := by
  cases l with
  | nil => simp [tryCite2] at h
  | cons c r1 =>
    rw [tryCite2] at h
    split at h
    · rename_i hc
      subst hc
      split at h
      · rename_i r3 heq
        have hsub3 : ∀ x, x ∈ r3 → x ∈ '(' :: r1 :=
          fun x hx =>
            List.mem_cons_of_mem _ (mem_of_dropWhile heq x (List.mem_cons_of_mem _ hx))
        split at h
        · simp at h
        · split at h
          · rename_i r5 heq2
            have hsub5 : ∀ x, x ∈ r5 → x ∈ '(' :: r1 := by
              intro x hx
              exact hsub3 x (mem_of_drop _ _
                (heq2 ▸ List.mem_cons_of_mem _ (List.mem_cons_of_mem _ hx)))
            split at h
            · simp at h
            · split at h
              · rename_i r7 heq3
                have hsub7 : ∀ x, x ∈ r7 → x ∈ '(' :: r1 := by
                  intro x hx
                  exact hsub5 x (mem_of_drop _ _ (heq3 ▸ List.mem_cons_of_mem _ hx))
                split at h
                · rename_i rem0 heq4
                  have hsubr : ∀ x, x ∈ rem0 → x ∈ '(' :: r1 := by
                    intro x hx
                    exact hsub7 x (mem_of_dropWhile heq4 x (List.mem_cons_of_mem _ hx))
                  simp only [Option.some.injEq, Prod.mk.injEq] at h
                  obtain ⟨h1, h2⟩ := h
                  subst h1; subst h2
                  refine ⟨fun hlt => ?_, hsubr⟩
                  simp only [List.cons_append, List.mem_cons, List.mem_append,
                    List.mem_singleton] at hlt
                  rcases hlt with h' | h' | ((h' | h' | h' | h') | h' | h') | h' | h'
                  · exact absurd h' (by decide)
                  · exact absurd h' (by decide)
                  · exact hsub3 _ (mem_of_takeWhile _ h')
                  · exact absurd h' (by decide)
                  · exact absurd h' (by decide)
                  · exact hsub5 _ (mem_of_takeWhile _ h')
                  · exact absurd h' (by decide)
                  · exact absurd h' (List.not_mem_nil _)
                  · exact absurd h' (by decide)
                  · exact absurd h' (List.not_mem_nil _)
                · simp at h
              · simp at h
          · simp at h
      · simp at h
    · simp at h

theorem openAfter_append (a b : List (List Char)) (r : Bool) :
    openAfter (a ++ b) r = openAfter b (openAfter a r) := by
  simp [openAfter, List.foldl_append]

theorem openAfter_clean_cons (t : List Char) (h1 : t ≠ thinkOpen) (h2 : t ≠ thinkClose)
    (toks : List (List Char)) (r : Bool) :
    openAfter (t :: toks) r = openAfter toks r := by
  simp [openAfter, h1, h2]

theorem openAfter_open_cons (toks : List (List Char)) (r : Bool) :
    openAfter (thinkOpen :: toks) r = openAfter toks true := by
  simp [openAfter]

theorem openAfter_close_cons (toks : List (List Char)) (r : Bool) :
    openAfter (thinkClose :: toks) r = openAfter toks false := by
  have h : thinkClose ≠ thinkOpen := by decide
  simp [openAfter, h]

theorem streamTokens_closes_on_natural_end
    (evs : List SSEvent) (r : Bool)
    (hdone : SSEvent.done ∉ evs) (hclean : ∀ e ∈ evs, eventClean e) :
    openAfter (streamTokens evs r) r = false := by
  induction evs generalizing r with
  | nil =>
    cases r <;> simp [streamTokens, openAfter, thinkOpen, thinkClose]
  | cons e evs ih =>
    have hdone' : SSEvent.done ∉ evs := fun h => hdone (List.mem_cons_of_mem _ h)
    have hclean' : ∀ x ∈ evs, eventClean x := fun x hx => hclean x (List.mem_cons_of_mem _ hx)
    cases e with
    | done => exact absurd (List.mem_cons_self _ _) hdone
    | malformed =>
      simpa [streamTokens] using ih r hdone' hclean'
    | data rs cs =>
      have hc : eventClean (SSEvent.data rs cs) := hclean _ (List.mem_cons_self _ _)
      obtain ⟨h1, h2, h3, h4⟩ := hc
      by_cases hrs : rs.isEmpty <;> by_cases hcs : cs.isEmpty <;> cases r <;>
        simp only [streamTokens, hrs, hcs, if_true, if_false, Bool.false_eq_true,
          ite_true, ite_false] <;>
        repeat
          first
          | exact ih _ hdone' hclean'
          | rw [openAfter_open_cons]
          | rw [openAfter_close_cons]
          | rw [openAfter_clean_cons rs h1 h2]
          | rw [openAfter_clean_cons cs h3 h4]

theorem streamTokens_reasoning_from_true (rs : List (List Char)) (k : List SSEvent) :
    (streamTokens (rs.map mkR ++ k) true).flatten = rs.flatten ++ (streamTokens k true).flatten := by
  induction rs with
  | nil => simp
  | cons r rs ih =>
    by_cases hr : r.isEmpty
    · have hre : r = [] := List.isEmpty_iff.mp hr
      simp [mkR, streamTokens, hr, hre, ih]
    · simp [mkR, streamTokens, hr, ih]

theorem streamTokens_reasoning_from_false (rs : List (List Char)) (k : List SSEvent) :
    (streamTokens (rs.map mkR ++ k) false).flatten =
      if rs.flatten = [] then (streamTokens k false).flatten
      else thinkOpen ++ rs.flatten ++ (streamTokens k true).flatten := by
  induction rs with
  | nil => simp
  | cons r rs ih =>
    by_cases hr : r.isEmpty
    · have hre : r = [] := List.isEmpty_iff.mp hr
      simp [mkR, streamTokens, hr, hre, ih]
    · have hre : r ≠ [] := fun h => hr (by simp [h])
      have hj : r ++ rs.flatten ≠ [] := fun h => hre (List.append_eq_nil.mp h).1
      simp [mkR, streamTokens, hr, hj, streamTokens_reasoning_from_true]

theorem streamTokens_content_from_false (cs : List (List Char)) (k : List SSEvent) :
    (streamTokens (cs.map mkC ++ k) false).flatten = cs.flatten ++ (streamTokens k false).flatten := by
  induction cs with
  | nil => simp
  | cons c cs ih =>
    by_cases hc : c.isEmpty
    · have hce : c = [] := List.isEmpty_iff.mp hc
      simp [mkC, streamTokens, hc, hce, ih]
    · simp [mkC, streamTokens, hc, ih]

theorem streamTokens_content_from_true (cs : List (List Char)) :
    (streamTokens (cs.map mkC) true).flatten = thinkClose ++ cs.flatten := by
  induction cs with
  | nil => simp [streamTokens]
  | cons c cs ih =>
    by_cases hc : c.isEmpty
    · have hce : c = [] := List.isEmpty_iff.mp hc
      simp [mkC, streamTokens, hc, hce, ih]
    · have h := streamTokens_content_from_false cs []
      simp [streamTokens] at h
      simp [mkC, streamTokens, hc, h]

/-- Reasoning-delta events followed by answer-delta events followed by
natural end-of-stream reassemble to one `<think>…</think>…` string. -/
theorem streamTokens_round_trip (rs cs : List (List Char)) (h : rs.flatten ≠ []) :
    (streamTokens (rs.map mkR ++ cs.map mkC) false).flatten =
      thinkOpen ++ rs.flatten ++ (thinkClose ++ cs.flatten) := by
  rw [streamTokens_reasoning_from_false rs (cs.map mkC), if_neg h,
    streamTokens_content_from_true cs]


theorem citeUnwrap_no_lt (l : List Char) (h : '<' ∉ l) : '<' ∉ citeUnwrap l := by
  rw [citeUnwrap, citePass1, citePass2]
  exact citePassF_no_lt tryCite2 (fun hx => tryCite2_mem hx) _ _
    (citePassF_no_lt tryCite1 (fun hx => tryCite1_mem hx) _ l h)

/-- Core of the marker-free case: with no `<` in the input, no span or
leak is extracted, the reasoning buffer is empty and the body is the
trimmed citation-unwrapped input. -/
theorem parse_no_lt (l : List Char) (b : Bool) (h : '<' ∉ l) :
    (parseContent l b).thought = [] ∧ (parseContent l b).main = trimWs (citeUnwrap l) := by
  have h0 : '<' ∉ citeUnwrap l := citeUnwrap_no_lt l h
  have ht := extractThink_no_marker (citeUnwrap l) (splitMarker_thinkOpen_none _ h0)
  have hl := extractLeak_no_marker (citeUnwrap l) (splitMarker_leakOpen_none _ h0)
  simp [parseContent, ht, hl, joinSep, trimWs]

theorem joinSep_cons_ne_nil (c : Char) (hc : isWs c = false)
    (y : List Char) (ts : List (List Char)) :
    trimWs (joinSep nlnl ((c :: y) :: ts)) ≠ [] := by
  cases ts with
  | nil => exact trimWs_cons_ne_nil c y hc
  | cons a as =>
    show trimWs ((c :: y) ++ nlnl ++ joinSep nlnl (a :: as)) ≠ []
    rw [List.cons_append, List.cons_append]
    exact trimWs_cons_ne_nil c _ hc

theorem trimWs_leakOpen_head (X : List Char) :
    ∃ y, trimWs (leakOpen ++ X) = '<' :: y := by
  rw [leakOpen_cons, List.cons_append, trimWs_cons '<' _ (by decide)]
  exact ⟨_, rfl⟩

/-- Core of the leak direction: in a parenthesis-free input with no
`<think>` opener, an occurrence of the leaked tool-call marker forces a
non-empty reasoning buffer (the captured leak text contains the marker
itself and survives trimming). -/
theorem parse_leak_ne_nil (l : List Char) (b : Bool)
    (hto : splitMarker thinkOpen l = none) (hp : '(' ∉ l)
    (hleak : occurs leakOpen l = true) : (parseContent l b).thought ≠ [] := by
  have hcu : citeUnwrap l = l := citeUnwrap_id l hp
  have hsm : ∃ pp, splitMarker leakOpen l = some pp := by
    cases hx : splitMarker leakOpen l with
    | none => rw [occurs, hx] at hleak; simp at hleak
    | some pp => exact ⟨pp, rfl⟩
  obtain ⟨⟨pre, post⟩, hsm⟩ := hsm
  have ht := extractThink_no_marker l hto
  obtain ⟨k, hk⟩ := length_succ_of_ne_nil (splitMarker_ne_nil hsm)
  have hlk : extractLeak l = extractLeakF (k + 1) l := by rw [extractLeak, hk]
  cases hin : splitMarker nlnl post with
  | none =>
    have hval : extractLeak l = (pre, [trimWs (leakOpen ++ post)]) := by
      rw [hlk, extractLeakF, hsm]
      simp only [hin]
    obtain ⟨y, hy⟩ := trimWs_leakOpen_head post
    simp only [parseContent, hcu, ht, hval, List.nil_append, hy]
    exact joinSep_cons_ne_nil '<' (by decide) y []
  | some q =>
    obtain ⟨body, rest⟩ := q
    have hval : extractLeak l =
        (pre ++ (extractLeakF k rest).1,
          trimWs (leakOpen ++ body ++ nlnl) :: (extractLeakF k rest).2) := by
      rw [hlk, extractLeakF, hsm]
      simp only [hin]
    obtain ⟨y, hy⟩ := trimWs_leakOpen_head (body ++ nlnl)
    rw [← List.append_assoc] at hy
    simp only [parseContent, hcu, ht, hval, List.nil_append, hy]
    exact joinSep_cons_ne_nil '<' (by decide) y _

/-- Parsing a reassembled `<think>R</think>C` string with trim-stable,
marker-free, parenthesis-free `R` and `C` recovers exactly `R` as the
reasoning buffer and `C` as the body. -/
theorem parse_shape (R C : List Char) (b : Bool)
    (hRtrim : trimWs R = R) (hCtrim : trimWs C = C)
    (hRlt : '<' ∉ R) (hClt : '<' ∉ C) (hRp : '(' ∉ R) (hCp : '(' ∉ C) :
    (parseContent (thinkOpen ++ (R ++ (thinkClose ++ C))) b).thought = R ∧
      (parseContent (thinkOpen ++ (R ++ (thinkClose ++ C))) b).main = C := by
  have hnp : '(' ∉ thinkOpen ++ (R ++ (thinkClose ++ C)) := by
    intro hm
    simp only [List.mem_append] at hm
    rcases hm with hm | hm | hm | hm
    · exact absurd hm (by decide)
    · exact hRp hm
    · exact absurd hm (by decide)
    · exact hCp hm
  have hcu := citeUnwrap_id _ hnp
  have hth := extractThink_shape R C hRlt hClt
  have hle := extractLeak_no_marker C (splitMarker_leakOpen_none C hClt)
  constructor
  · simp only [parseContent, hcu, hth, hle]
    show trimWs (joinSep nlnl ([R] ++ [])) = R
    simpa [joinSep] using hRtrim
  · simp only [parseContent, hcu, hth, hle]
    exact hCtrim

/-! ### Activity-list structure -/

/-- The de-duplication invariant: every built action's value is in the
seen set, and the built values are pairwise distinct. -/
def actsInv (st : List SAction × List (List Char)) : Prop :=
  (∀ a ∈ st.1, a.content ∈ st.2) ∧
    List.Pairwise (fun x y : SAction => x.content ≠ y.content) st.1

theorem pushIfNew_fst (st : List SAction × List (List Char)) (k : AKind) (v : List Char) :
    (pushIfNew st k v).1 = st.1 ∨ (pushIfNew st k v).1 = st.1 ++ [⟨k, v⟩] := by
  unfold pushIfNew
  split
  · exact Or.inl rfl
  · exact Or.inr rfl

theorem pushIfNew_inv (st : List SAction × List (List Char)) (k : AKind) (v : List Char)
    (h : actsInv st) : actsInv (pushIfNew st k v) := by
  obtain ⟨h1, h2⟩ := h
  unfold pushIfNew
  split
  · exact ⟨h1, h2⟩
  · rename_i hv
    constructor
    · intro a ha
      rcases List.mem_append.mp ha with ha | ha
      · exact List.mem_append_left _ (h1 a ha)
      · rw [List.mem_singleton.mp ha]
        exact List.mem_append_right _ (List.mem_singleton_self v)
    · rw [List.pairwise_append]
      refine ⟨h2, List.pairwise_singleton _ _, ?_⟩
      intro a ha b hb
      rw [List.mem_singleton.mp hb]
      intro hc
      apply hv
      have hcv : a.content = v := hc
      rw [← hcv]
      exact h1 a ha

theorem foldl_step_inv (step : List SAction × List (List Char) → List Char →
      List SAction × List (List Char))
    (hstep : ∀ st v, step st v = st ∨ ∃ k, step st v = pushIfNew st k v) :
    ∀ (vs : List (List Char)) (st : List SAction × List (List Char)),
      actsInv st → actsInv (vs.foldl step st) := by
  intro vs
  induction vs with
  | nil => intro st h; exact h
  | cons v vs ih =>
    intro st h
    rcases hstep st v with hs | ⟨k, hs⟩
    · rw [List.foldl_cons, hs]; exact ih st h
    · rw [List.foldl_cons, hs]; exact ih _ (pushIfNew_inv st k v h)

theorem foldl_step_kinds (k : AKind)
    (step : List SAction × List (List Char) → List Char → List SAction × List (List Char))
    (hstep : ∀ st v, step st v = st ∨ step st v = pushIfNew st k v) :
    ∀ (vs : List (List Char)) (st : List SAction × List (List Char)),
      ∃ xs, (vs.foldl step st).1 = st.1 ++ xs ∧ ∀ a ∈ xs, a.kind = k := by
  intro vs
  induction vs with
  | nil => intro st; exact ⟨[], by simp, by simp⟩
  | cons v vs ih =>
    intro st
    rcases hstep st v with hs | hs
    · obtain ⟨xs, hx1, hx2⟩ := ih st
      exact ⟨xs, by rw [List.foldl_cons, hs, hx1], hx2⟩
    · obtain ⟨xs, hx1, hx2⟩ := ih (pushIfNew st k v)
      rcases pushIfNew_fst st k v with hp | hp
      · exact ⟨xs, by rw [List.foldl_cons, hs, hx1, hp], hx2⟩
      · refine ⟨⟨k, v⟩ :: xs, by rw [List.foldl_cons, hs, hx1, hp]; simp, ?_⟩
        intro a ha
        rcases List.mem_cons.mp ha with ha | ha
        · rw [ha]
        · exact hx2 a ha

theorem extractActions_decomp (ft : List Char) :
    ∃ qs us, extractActions ft = qs ++ us ∧
      (∀ a ∈ qs, a.kind = AKind.query) ∧ (∀ a ∈ us, a.kind = AKind.url) := by
  obtain ⟨qs, hq1, hq2⟩ :=
    foldl_step_kinds AKind.query _ (fun st v => Or.inr rfl) (kvScan queryKey ft) ([], [])
  obtain ⟨us, hu1, hu2⟩ :=
    foldl_step_kinds AKind.url _ (fun st v => Or.inr rfl) (kvScan urlKey ft)
      ((kvScan queryKey ft).foldl (fun st v => pushIfNew st AKind.query v) ([], []))
  simp only [extractActions]
  split
  · obtain ⟨ws, hw1, hw2⟩ :=
      foldl_step_kinds AKind.url
        (fun st v =>
          if occurs "localhost".data v || !(decide (10 < v.length)) then st
          else pushIfNew st AKind.url v)
        (fun st v => by
          by_cases hcond : (occurs "localhost".data v || !decide (10 < v.length)) = true
          · exact Or.inl (if_pos hcond)
          · exact Or.inr (if_neg hcond))
        (httpScan ft) (structuredState ft)
    refine ⟨qs, us ++ ws, ?_, hq2, ?_⟩
    · rw [hw1]
      show (structuredState ft).1 ++ ws = qs ++ (us ++ ws)
      rw [structuredState, hu1, hq1]
      simp
    · intro a ha
      rcases List.mem_append.mp ha with ha | ha
      · exact hu2 a ha
      · exact hw2 a ha
  · refine ⟨qs, us, ?_, hq2, hu2⟩
    show (structuredState ft).1 = qs ++ us
    rw [structuredState, hu1, hq1]
    simp

theorem extractActions_nodup (ft : List Char) :
    List.Pairwise (fun x y : SAction => x.content ≠ y.content) (extractActions ft) := by
  have hbase : actsInv ([], []) := ⟨by simp, by simp⟩
  have hst : actsInv (structuredState ft) := by
    rw [structuredState]
    exact foldl_step_inv _ (fun st v => Or.inr ⟨AKind.url, rfl⟩) _ _
      (foldl_step_inv _ (fun st v => Or.inr ⟨AKind.query, rfl⟩) _ _ hbase)
  simp only [extractActions]
  split
  · exact (foldl_step_inv _
      (fun st v => by
        by_cases hcond : (occurs "localhost".data v || !decide (10 < v.length)) = true
        · exact Or.inl (if_pos hcond)
        · exact Or.inr ⟨AKind.url, if_neg hcond⟩)
      (httpScan ft) (structuredState ft) hst).2
  · exact hst.2

theorem extractActions_of_url_action (ft : List Char)
    (h : ∃ a ∈ (structuredState ft).1, a.kind = AKind.url) :
    extractActions ft = (structuredState ft).1 := by
  obtain ⟨a, ha, hk⟩ := h
  simp only [extractActions]
  rw [if_neg]
  rintro ⟨_, hlen⟩
  have hmem : a ∈ (structuredState ft).1.filter (fun x => x.kind == AKind.url) :=
    List.mem_filter.mpr ⟨ha, by rw [hk]; rfl⟩
  rw [List.length_eq_zero.mp hlen] at hmem
  exact List.not_mem_nil a hmem

/-! ### Occurrence preservation through citation unwrapping

The two citation replacements rewrite `( … )` regions into
`' ' ++ core ++ ' '` where `core` is a contiguous substring of the
input.  A space-free marker therefore cannot be created by a
replacement: any occurrence in the output lies inside a copied region
of the input. -/

theorem occurs_nil (m : List Char) : occurs m [] = false := rfl

theorem occurs_cons (m : List Char) (c : Char) (t : List Char) :
    occurs m (c :: t) = (listPre m (c :: t) || occurs m t) := by
  rw [occurs, splitMarker]
  by_cases hpre : listPre m (c :: t) = true
  · simp [hpre]
  · cases hsm : splitMarker m t with
    | none => simp [hpre, occurs, hsm]
    | some pp => simp [hpre, occurs, hsm]

theorem occurs_shape (m : List Char) (hm : m ≠ []) :
    ∀ pre post, occurs m (pre ++ (m ++ post)) = true := by
  intro pre
  induction pre with
  | nil =>
    intro post
    cases m with
    | nil => exact absurd rfl hm
    | cons d m' =>
      rw [List.nil_append, List.cons_append, occurs_cons]
      have h1 : listPre (d :: m') (d :: (m' ++ post)) = true := by
        have h2 := listPre_append_self (d :: m') post
        rwa [List.cons_append] at h2
      rw [h1]
      rfl
  | cons c pre ih =>
    intro post
    rw [List.cons_append, occurs_cons, ih post]
    exact Bool.or_true _

theorem occurs_of_mid (m core : List Char) (hm : m ≠ [])
    {l u v : List Char} (hl : l = u ++ (core ++ v))
    (hc : occurs m core = true) : occurs m l = true := by
  rw [occurs] at hc
  cases hsm : splitMarker m core with
  | none => rw [hsm] at hc; simp at hc
  | some pp =>
    obtain ⟨p, q⟩ := pp
    have hd := splitMarker_decomp m core p q hsm
    have : l = (u ++ p) ++ (m ++ (q ++ v)) := by
      rw [hl, hd]; simp [List.append_assoc]
    rw [this]
    exact occurs_shape m hm _ _

theorem occurs_suffix (m : List Char) (hm : m ≠ [])
    {l u rem : List Char} (hl : l = u ++ rem)
    (hr : occurs m rem = true) : occurs m l = true := by
  have hl2 : l = u ++ (rem ++ []) := by rw [hl, List.append_nil]
  exact occurs_of_mid m rem hm hl2 hr

theorem listPre_through_space (m : List Char) (hm : ' ' ∉ m) :
    ∀ x y, listPre m (x ++ ' ' :: y) = true → listPre m x = true := by
  induction m with
  | nil => intro x y _; rfl
  | cons d m' ih =>
    intro x y h
    have hd : d ≠ ' ' := fun hd => hm (hd ▸ List.mem_cons_self d m')
    cases x with
    | nil =>
      rw [List.nil_append, listPre] at h
      simp only [Bool.and_eq_true, decide_eq_true_eq] at h
      exact absurd h.1 hd
    | cons c x' =>
      rw [List.cons_append, listPre] at h
      simp only [Bool.and_eq_true, decide_eq_true_eq] at h
      obtain ⟨rfl, h2⟩ := h
      have := ih (fun hmem => hm (List.mem_cons_of_mem _ hmem)) x' y h2
      simp [listPre, this]

theorem occurs_split_space (m : List Char) (hm : ' ' ∉ m) (hmne : m ≠ []) :
    ∀ x y, occurs m (x ++ ' ' :: y) = true →
      occurs m x = true ∨ occurs m y = true := by
  intro x
  induction x with
  | nil =>
    intro y h
    rw [List.nil_append, occurs_cons] at h
    cases m with
    | nil => exact absurd rfl hmne
    | cons d m' =>
      have hd : d ≠ ' ' := fun hd => hm (hd ▸ List.mem_cons_self d m')
      rw [listPre] at h
      simp only [Bool.or_eq_true, Bool.and_eq_true, decide_eq_true_eq] at h
      rcases h with ⟨h1, _⟩ | h
      · exact absurd h1 hd
      · exact Or.inr h
  | cons c x' ih =>
    intro y h
    rw [List.cons_append, occurs_cons] at h
    rcases Bool.or_eq_true_iff.mp h with h | h
    · have : listPre m ((c :: x') ++ ' ' :: y) = true := by
        rw [List.cons_append]; exact h
      have := listPre_through_space m hm (c :: x') y this
      left
      rw [occurs_cons, this]
      rfl
    · rcases ih y h with h' | h'
      · left
        rw [occurs_cons, h']
        simp
      · exact Or.inr h'

theorem drop_takeWhile_length (p : Char → Bool) :
    ∀ l : List Char, l.drop (l.takeWhile p).length = l.dropWhile p := by
  intro l
  induction l with
  | nil => rfl
  | cons c t ih =>
    by_cases h : p c
    · rw [List.takeWhile_cons_of_pos h, List.dropWhile_cons_of_pos h,
        List.length_cons, List.drop_succ_cons]
      exact ih
    · rw [List.takeWhile_cons_of_neg h, List.dropWhile_cons_of_neg h]
      rfl

theorem take_takeWhile_length (p : Char → Bool) :
    ∀ l : List Char, l.take (l.takeWhile p).length = l.takeWhile p := by
  intro l
  induction l with
  | nil => rfl
  | cons c t ih =>
    by_cases h : p c
    · rw [List.takeWhile_cons_of_pos h, List.length_cons, List.take_succ_cons, ih]
    · rw [List.takeWhile_cons_of_neg h]
      rfl

theorem stripScheme_decomp {l sch rest : List Char}
    (h : stripScheme l = some (sch, rest)) : l = sch ++ rest := by
  unfold stripScheme at h
  split at h
  · rename_i hpre
    obtain ⟨t, ht⟩ := (listPre_iff _ _).mp hpre
    simp only [Option.some.injEq, Prod.mk.injEq] at h
    obtain ⟨h1, h2⟩ := h
    subst h1
    rw [ht, show (8 : Nat) = ("https://".data).length from by decide,
      List.drop_left] at h2
    rw [ht, h2]
  · split at h
    · rename_i hpre
      obtain ⟨t, ht⟩ := (listPre_iff _ _).mp hpre
      simp only [Option.some.injEq, Prod.mk.injEq] at h
      obtain ⟨h1, h2⟩ := h
      subst h1
      rw [ht, show (7 : Nat) = ("http://".data).length from by decide,
        List.drop_left] at h2
      rw [ht, h2]
    · simp at h

/-- The first citation replacement decomposes its input: the
replacement is `' ' ++ core ++ ' '` for a `core` (scheme and URL token)
that is a contiguous substring of the input, and the remainder is a
suffix of the input. -/
theorem tryCite1_decomp : ∀ l rep rem : List Char, tryCite1 l = some (rep, rem) →
    ∃ core u v w, rep = ' ' :: core ++ [' '] ∧ l = u ++ (core ++ v) ∧ l = w ++ rem := by
  intro l rep rem h
  cases l with
  | nil => simp [tryCite1] at h
  | cons c r1 =>
    rw [tryCite1] at h
    split at h
    · rename_i hc
      subst hc
      split at h
      · simp at h
      · rename_i sch r3 heq
        split at h
        · simp at h
        · split at h
          · rename_i rem0 heq2
            simp only [Option.some.injEq, Prod.mk.injEq] at h
            obtain ⟨h1, h2⟩ := h
            subst h1
            subst h2
            have e1 : r1 = r1.takeWhile isWs ++ (sch ++ r3) := by
              conv_lhs => rw [← List.takeWhile_append_dropWhile isWs r1]
              rw [stripScheme_decomp heq]
            obtain ⟨w2, e2⟩ : ∃ w2,
                r3.drop (r3.takeWhile cite1Tok).length = w2 ++ (')' :: rem0) :=
              ⟨(r3.drop (r3.takeWhile cite1Tok).length).takeWhile isWs, by
                conv_lhs => rw [← List.takeWhile_append_dropWhile isWs
                  (r3.drop (r3.takeWhile cite1Tok).length)]
                rw [heq2]⟩
            have e3 : r3 = r3.takeWhile cite1Tok ++ (w2 ++ (')' :: rem0)) := by
              conv_lhs => rw [← List.take_append_drop
                (r3.takeWhile cite1Tok).length r3]
              rw [take_takeWhile_length, e2]
            refine ⟨sch ++ r3.takeWhile cite1Tok, '(' :: r1.takeWhile isWs,
              w2 ++ (')' :: rem0),
              '(' :: (r1.takeWhile isWs ++ (sch ++ (r3.takeWhile cite1Tok ++
                (w2 ++ [')'])))), rfl, ?_, ?_⟩
            · conv_lhs => rw [e1]
              conv_lhs => rw [e3]
              simp [List.append_assoc]
            · conv_lhs => rw [e1]
              conv_lhs => rw [e3]
              simp [List.append_assoc]
          · simp at h
    · simp at h

/-- The second citation replacement decomposes its input in the same
way: `core` is the contiguous `[text](url)` region of the input. -/
theorem tryCite2_decomp : ∀ l rep rem : List Char, tryCite2 l = some (rep, rem) →
    ∃ core u v w, rep = ' ' :: core ++ [' '] ∧ l = u ++ (core ++ v) ∧ l = w ++ rem := by
  intro l rep rem h
  cases l with
  | nil => simp [tryCite2] at h
  | cons c r1 =>
    rw [tryCite2] at h
    split at h
    · rename_i hc
      subst hc
      split at h
      · rename_i r3 heq
        split at h
        · simp at h
        · split at h
          · rename_i r5 heq2
            split at h
            · simp at h
            · split at h
              · rename_i r7 heq3
                split at h
                · rename_i rem0 heq4
                  simp only [Option.some.injEq, Prod.mk.injEq] at h
                  obtain ⟨h1, h2⟩ := h
                  subst h1
                  subst h2
                  have e1 : r1 = r1.takeWhile isWs ++ ('[' :: r3) := by
                    conv_lhs => rw [← List.takeWhile_append_dropWhile isWs r1]
                    rw [heq]
                  have e3 : r3 = r3.takeWhile (fun x => !(x = ']')) ++
                      (']' :: '(' :: r5) := by
                    conv_lhs => rw [← List.take_append_drop
                      (r3.takeWhile (fun x => !(x = ']'))).length r3]
                    rw [take_takeWhile_length, heq2]
                  have e5 : r5 = r5.takeWhile (fun x => !(x = ')')) ++
                      (')' :: r7) := by
                    conv_lhs => rw [← List.take_append_drop
                      (r5.takeWhile (fun x => !(x = ')'))).length r5]
                    rw [take_takeWhile_length, heq3]
                  obtain ⟨w2, e7⟩ : ∃ w2, r7 = w2 ++ (')' :: rem0) :=
                    ⟨r7.takeWhile isWs, by
                      conv_lhs => rw [← List.takeWhile_append_dropWhile isWs r7]
                      rw [heq4]⟩
                  refine ⟨'[' :: r3.takeWhile (fun x => !(x = ']')) ++
                      ']' :: '(' :: r5.takeWhile (fun x => !(x = ')')) ++ [')'],
                    '(' :: r1.takeWhile isWs,
                    r7,
                    '(' :: r1.takeWhile isWs ++ '[' :: r3.takeWhile (fun x => !(x = ']')) ++
                      ']' :: '(' :: r5.takeWhile (fun x => !(x = ')')) ++ ')' :: w2 ++ [')'],
                    rfl, ?_, ?_⟩
                  · conv_lhs => rw [e1]
                    conv_lhs => rw [e3]
                    conv_lhs => rw [e5]
                    simp [List.append_assoc]
                  · conv_lhs => rw [e1]
                    conv_lhs => rw [e3]
                    conv_lhs => rw [e5]
                    conv_lhs => rw [e7]
                    simp [List.append_assoc]
                · simp at h
              · simp at h
          · simp at h
      · simp at h
    · simp at h

theorem listPre_citePassF (tm : List Char → Option (List Char × List Char))
    (hhead : ∀ l rep rem : List Char, tm l = some (rep, rem) → ∃ w, rep = ' ' :: w) :
    ∀ m : List Char, ' ' ∉ m →
      ∀ (n : Nat) (x : List Char), listPre m (citePassF tm n x) = true →
        listPre m x = true := by
  intro m
  induction m with
  | nil => intro _ n x _; rfl
  | cons d m' ih =>
    intro hm n x h
    have hd : d ≠ ' ' := fun hd => hm (hd ▸ List.mem_cons_self d m')
    cases n with
    | zero => exact h
    | succ n =>
      cases x with
      | nil =>
        rw [citePassF] at h
        simp [listPre] at h
      | cons c rest =>
        cases htc : tm (c :: rest) with
        | some p =>
          obtain ⟨rep, rem⟩ := p
          rw [citePassF, htc] at h
          have h2 : listPre (d :: m') (rep ++ citePassF tm n rem) = true := h
          obtain ⟨w, hw⟩ := hhead _ _ _ htc
          rw [hw, List.cons_append, listPre] at h2
          simp only [Bool.and_eq_true, decide_eq_true_eq] at h2
          exact absurd h2.1 hd
        | none =>
          rw [citePassF, htc] at h
          have h2 : listPre (d :: m') (c :: citePassF tm n rest) = true := h
          rw [listPre] at h2
          simp only [Bool.and_eq_true, decide_eq_true_eq] at h2
          obtain ⟨rfl, h2⟩ := h2
          have h3 := ih (fun hmem => hm (List.mem_cons_of_mem _ hmem)) n rest h2
          simp [listPre, h3]

theorem citePassF_no_occurs (tm : List Char → Option (List Char × List Char))
    (htm : ∀ l rep rem : List Char, tm l = some (rep, rem) →
      ∃ core u v w, rep = ' ' :: core ++ [' '] ∧ l = u ++ (core ++ v) ∧ l = w ++ rem)
    (m : List Char) (hm : ' ' ∉ m) (hmne : m ≠ []) :
    ∀ (n : Nat) (l : List Char), occurs m l = false →
      occurs m (citePassF tm n l) = false := by
  have hhead : ∀ l rep rem : List Char, tm l = some (rep, rem) → ∃ w, rep = ' ' :: w := by
    intro l rep rem h
    obtain ⟨core, u, v, w, h1, _, _⟩ := htm l rep rem h
    exact ⟨core ++ [' '], h1⟩
  intro n
  induction n with
  | zero => intro l h; exact h
  | succ n ih =>
    intro l h
    cases l with
    | nil => exact h
    | cons c rest =>
      rw [occurs_cons] at h
      have hparts := Bool.or_eq_false_iff.mp h
      cases htc : tm (c :: rest) with
      | none =>
        rw [citePassF, htc]
        show occurs m (c :: citePassF tm n rest) = false
        rw [occurs_cons, ih rest hparts.2]
        cases hlp : listPre m (c :: citePassF tm n rest) with
        | false => rfl
        | true =>
          exfalso
          cases m with
          | nil => exact absurd rfl hmne
          | cons d m' =>
            rw [listPre] at hlp
            simp only [Bool.and_eq_true, decide_eq_true_eq] at hlp
            obtain ⟨rfl, hlp2⟩ := hlp
            have hm' : ' ' ∉ m' := fun hmem => hm (List.mem_cons_of_mem _ hmem)
            have h3 := listPre_citePassF tm hhead m' hm' n rest hlp2
            have h4 : listPre (d :: m') (d :: rest) = true := by
              simp [listPre, h3]
            rw [hparts.1] at h4
            exact Bool.false_ne_true h4
      | some p =>
        obtain ⟨rep, rem⟩ := p
        obtain ⟨core, u, v, w, hrep, hcore, hrem⟩ := htm _ _ _ htc
        have hfull : occurs m (c :: rest) = false := by
          rw [occurs_cons, hparts.1, hparts.2]
          rfl
        have hc2 : occurs m core = false := by
          cases hoc : occurs m core with
          | false => rfl
          | true => exact absurd (occurs_of_mid m core hmne hcore hoc) (by simp [hfull])
        have hr2 : occurs m rem = false := by
          cases hor : occurs m rem with
          | false => rfl
          | true => exact absurd (occurs_suffix m hmne hrem hor) (by simp [hfull])
        have hout : occurs m (citePassF tm n rem) = false := ih rem hr2
        rw [citePassF, htc]
        show occurs m (rep ++ citePassF tm n rem) = false
        rw [hrep]
        have hshape : (' ' :: core ++ [' ']) ++ citePassF tm n rem
            = ' ' :: (core ++ ' ' :: citePassF tm n rem) := by simp
        rw [hshape, occurs_cons]
        have hl1 : listPre m (' ' :: (core ++ ' ' :: citePassF tm n rem)) = false := by
          cases m with
          | nil => exact absurd rfl hmne
          | cons d m' =>
            have hd : d ≠ ' ' := fun hd => hm (hd ▸ List.mem_cons_self d m')
            simp [listPre, hd]
        have hl2 : occurs m (core ++ ' ' :: citePassF tm n rem) = false := by
          cases ho : occurs m (core ++ ' ' :: citePassF tm n rem) with
          | false => rfl
          | true =>
            rcases occurs_split_space m hm hmne _ _ ho with h' | h'
            · exact absurd h' (by simp [hc2])
            · exact absurd h' (by simp [hout])
        rw [hl1, hl2]
        rfl

/-- Citation unwrapping cannot create an occurrence of a space-free
marker: the replacements only copy contiguous input substrings,
separated by inserted spaces. -/
theorem citeUnwrap_no_occurs (m : List Char) (hm : ' ' ∉ m) (hmne : m ≠ [])
    (l : List Char) (h : occurs m l = false) : occurs m (citeUnwrap l) = false := by
  rw [citeUnwrap, citePass1, citePass2]
  exact citePassF_no_occurs tryCite2 tryCite2_decomp m hm hmne _ _
    (citePassF_no_occurs tryCite1 tryCite1_decomp m hm hmne _ l h)

/-- Core of the marker-free case, at the claim's own hypothesis: if the
input contains neither the `<think>` opener nor the `<|start|>` leak
marker as substrings, no span or leak is extracted, the reasoning
buffer is empty and the body is the trimmed citation-unwrapped input. -/
theorem parse_no_marker (l : List Char) (b : Bool)
    (h1 : occurs thinkOpen l = false) (h2 : occurs leakOpen l = false) :
    (parseContent l b).thought = [] ∧
      (parseContent l b).main = trimWs (citeUnwrap l) := by
  have hu1 : occurs thinkOpen (citeUnwrap l) = false :=
    citeUnwrap_no_occurs thinkOpen (by decide) (by decide) l h1
  have hu2 : occurs leakOpen (citeUnwrap l) = false :=
    citeUnwrap_no_occurs leakOpen (by decide) (by decide) l h2
  have hn1 : splitMarker thinkOpen (citeUnwrap l) = none := by
    rw [occurs] at hu1
    exact Option.not_isSome_iff_eq_none.mp (by simp [hu1])
  have hn2 : splitMarker leakOpen (citeUnwrap l) = none := by
    rw [occurs] at hu2
    exact Option.not_isSome_iff_eq_none.mp (by simp [hu2])
  have ht := extractThink_no_marker (citeUnwrap l) hn1
  have hl := extractLeak_no_marker (citeUnwrap l) hn2
  simp [parseContent, ht, hl, joinSep, trimWs]

/-! ### URL-hostname envelope

On the envelope documented at `urlHostname` the model agrees with the
browser, and the label helpers below compute its output explicitly. -/

set_option maxHeartbeats 4000000

/-- C1, counterexample: on the explicit `[DONE]` sentinel the generator
returns at once, so an open reasoning span is left unterminated — no
`</think>` is emitted, contradicting the claim that every termination
mode closes the span. -/
theorem c1_done_skips_close_cex :
    streamTokens [mkR "r".data, SSEvent.done] false = [thinkOpen, "r".data] ∧
    openAfter (streamTokens [mkR "r".data, SSEvent.done] false) false = true ∧
    thinkClose ∉ streamTokens [mkR "r".data, SSEvent.done] false := by
  refine ⟨by decide, by decide, by decide⟩

/-- C1 (amended): the closing reasoning marker is guaranteed only on
natural end-of-input.  For every event list that is consumed to its
natural end (no `[DONE]` sentinel; deltas that are not themselves marker
strings), the token stream never ends inside an open reasoning span. -/
theorem c1_closing_marker_only_on_natural_end (evs : List SSEvent)
    (hdone : SSEvent.done ∉ evs) (hclean : ∀ e ∈ evs, eventClean e) :
    openAfter (streamTokens evs false) false = false :=
  streamTokens_closes_on_natural_end evs false hdone hclean

theorem c1_closing_marker_only_on_natural_end_witness :
    openAfter (streamTokens [mkR "r".data, mkC "a".data] false) false = false :=
  c1_closing_marker_only_on_natural_end [mkR "r".data, mkC "a".data]
    (by decide)
    (by
      intro e he
      rcases List.mem_cons.mp he with rfl | he
      · exact ⟨by decide, by decide, by decide, by decide⟩
      · rcases List.mem_cons.mp he with rfl | he
        · exact ⟨by decide, by decide, by decide, by decide⟩
        · exact absurd he (List.not_mem_nil e))

/-- C2, counterexample: reasoning deltas whose concatenation is the
single space, followed by an answer delta, reassemble to
`<think> </think>a`, whose parse has empty (trimmed) reasoning — not
the non-empty concatenation of the reasoning deltas. -/
theorem c2_round_trip_cex :
    (streamTokens [mkR " ".data, mkC "a".data] false).flatten = "<think> </think>a".data ∧
    (parseContent ((streamTokens [mkR " ".data, mkC "a".data] false).flatten) false).thought
      = [] ∧
    " ".data ≠ ([] : List Char) := by
  refine ⟨by decide, by decide, by decide⟩

/-- C2 (amended): the demultiplexer round-trip holds when the
concatenated reasoning deltas are non-empty and both concatenations are
trim-stable and free of `<` and `(` (so that citation unwrapping,
marker extraction and trimming do not rewrite them): the parse of the
reassembled string has reasoning exactly the reasoning concatenation
(non-empty) and body exactly the answer concatenation. -/
theorem c2_round_trip_amended (rs cs : List (List Char)) (b : Bool)
    (hR : rs.flatten ≠ [])
    (hRtrim : trimWs rs.flatten = rs.flatten) (hCtrim : trimWs cs.flatten = cs.flatten)
    (hRlt : '<' ∉ rs.flatten) (hClt : '<' ∉ cs.flatten)
    (hRp : '(' ∉ rs.flatten) (hCp : '(' ∉ cs.flatten) :
    (parseContent ((streamTokens (rs.map mkR ++ cs.map mkC) false).flatten) b).thought
        = rs.flatten ∧
      (parseContent ((streamTokens (rs.map mkR ++ cs.map mkC) false).flatten) b).main
        = cs.flatten ∧
      rs.flatten ≠ [] := by
  rw [streamTokens_round_trip rs cs hR, List.append_assoc]
  have h := parse_shape rs.flatten cs.flatten b hRtrim hCtrim hRlt hClt hRp hCp
  exact ⟨h.1, h.2, hR⟩

theorem c2_round_trip_amended_witness :
    (parseContent ((streamTokens (["r1 ".data, "r2".data].map mkR ++
        ["Hello ".data, "world".data].map mkC) false).flatten) true).thought
      = "r1 r2".data ∧
    (parseContent ((streamTokens (["r1 ".data, "r2".data].map mkR ++
        ["Hello ".data, "world".data].map mkC) false).flatten) true).main
      = "Hello world".data := by
  have h := c2_round_trip_amended ["r1 ".data, "r2".data] ["Hello ".data, "world".data] true
    (by decide) (by decide) (by decide) (by decide) (by decide) (by decide) (by decide)
  exact ⟨h.1.trans (by decide), h.2.1.trans (by decide)⟩

/-- C3 (code bug): re-parsing a strictly longer prefix can remove an
activity.  The shorter text yields the fallback activity
`url https://example.com`; appending a structured `"url"` marker makes
the fallback scan not run, and that activity disappears from the longer
parse — activity growth is not monotonic, although the spec requires it
for UI stability. -/
theorem c3_extension_removes_activity :
    (parseContent "<think>https://example.com ".data true).searchActions
      = [⟨AKind.url, "https://example.com".data⟩] ∧
    (parseContent ("<think>https://example.com ".data ++
        "\"url\": \"https://other.org/x\"".data) true).searchActions
      = [⟨AKind.url, "https://other.org/x".data⟩] ∧
    (⟨AKind.url, "https://example.com".data⟩ : SAction) ∉
      (parseContent ("<think>https://example.com ".data ++
        "\"url\": \"https://other.org/x\"".data) true).searchActions := by
  refine ⟨by decide, by decide, by decide⟩

/-- C4, counterexample: a structured `"url"` marker is present in the
reasoning buffer, but its value duplicates an earlier query value, so
the structured phase yields no url-kind action and the bare-URL
fallback does run, contributing `https://b.org/page`. -/
theorem c4_fallback_runs_cex :
    occurs urlKey (parseContent ("<think>\"query\": \"https://a.com/xyz\" " ++
        "\"url\": \"https://a.com/xyz\" see https://b.org/page</think>").data true).thought
      = true ∧
    kvScan urlKey (parseContent ("<think>\"query\": \"https://a.com/xyz\" " ++
        "\"url\": \"https://a.com/xyz\" see https://b.org/page</think>").data true).thought
      = ["https://a.com/xyz".data] ∧
    (parseContent ("<think>\"query\": \"https://a.com/xyz\" " ++
        "\"url\": \"https://a.com/xyz\" see https://b.org/page</think>").data true).searchActions
      = [⟨AKind.query, "https://a.com/xyz".data⟩,
         ⟨AKind.url, "https://b.org/page".data⟩] := by
  refine ⟨by decide, by decide, by decide⟩

/-- C4 (amended): the fallback is suppressed exactly when the structured
phase produced at least one url-KIND activity (a url value not already
seen as a query value); in that case the activity list is the structured
list and the fallback contributes nothing. -/
theorem c4_structured_url_suppresses_fallback (l : List Char) (b : Bool) (a : SAction)
    (ha : a ∈ (structuredState (parseContent l b).thought).1) (hk : a.kind = AKind.url) :
    (parseContent l b).searchActions = (structuredState (parseContent l b).thought).1 :=
  extractActions_of_url_action _ ⟨a, ha, hk⟩

theorem c4_structured_url_suppresses_fallback_witness :
    (⟨AKind.url, "https://a.org/p".data⟩ : SAction) ∈
      (structuredState (parseContent ("<think>\"url\": \"https://a.org/p\" " ++
        "https://bare.example.org/zz</think>").data true).thought).1 ∧
    (parseContent ("<think>\"url\": \"https://a.org/p\" " ++
        "https://bare.example.org/zz</think>").data true).searchActions =
      (structuredState (parseContent ("<think>\"url\": \"https://a.org/p\" " ++
        "https://bare.example.org/zz</think>").data true).thought).1 ∧
    httpScan (parseContent ("<think>\"url\": \"https://a.org/p\" " ++
        "https://bare.example.org/zz</think>").data true).thought ≠ [] := by
  refine ⟨by decide, ?_, by decide⟩
  exact c4_structured_url_suppresses_fallback
    ("<think>\"url\": \"https://a.org/p\" https://bare.example.org/zz</think>").data true
    ⟨AKind.url, "https://a.org/p".data⟩ (by decide) rfl

/-- C5: the activity list never contains two entries with the same
value, across kinds as well as within a kind (global de-duplication,
first occurrence wins); in particular a twice-occurring
`"url": "https://a.org/p"` marker yields exactly one activity. -/
theorem c5_activity_values_globally_unique :
    (∀ (l : List Char) (b : Bool),
      List.Pairwise (fun x y : SAction => x.content ≠ y.content)
        (parseContent l b).searchActions) ∧
    (parseContent ("<think>\"url\": \"https://a.org/p\" " ++
        "\"url\": \"https://a.org/p\"</think>").data true).searchActions
      = [⟨AKind.url, "https://a.org/p".data⟩] := by
  refine ⟨fun l b => extractActions_nodup _, by decide⟩

/-- C6, counterexample: an input with no markers but trailing
whitespace: the body is the TRIMMED citation-unwrapped input, not the
citation-unwrapped input itself. -/
theorem c6_trim_cex :
    occurs thinkOpen "a ".data = false ∧ occurs leakOpen "a ".data = false ∧
    citeUnwrap "a ".data = "a ".data ∧
    (parseContent "a ".data false).main = "a".data ∧
    (parseContent "a ".data false).main ≠ citeUnwrap "a ".data := by
  refine ⟨by decide, by decide, by decide, by decide, by decide⟩

/-- C6 (amended): for every input containing neither the reasoning-span
opening marker `<think>` nor the leaked tool-call marker `<|start|>` as
a substring, parse returns empty reasoning and body equal to the
TRIMMED citation-unwrapped input, for either value of the live flag
(citation unwrapping cannot create a marker, so the markers stay absent
through the whole pipeline). -/
theorem c6_marker_free_parse (l : List Char) (b : Bool)
    (h1 : occurs thinkOpen l = false) (h2 : occurs leakOpen l = false) :
    (parseContent l b).thought = [] ∧
      (parseContent l b).main = trimWs (citeUnwrap l) :=
  parse_no_marker l b h1 h2

theorem c6_marker_free_parse_witness :
    (parseContent "x (https://e.com/a) y".data false).thought = [] ∧
    (parseContent "x (https://e.com/a) y".data false).main
      = trimWs (citeUnwrap "x (https://e.com/a) y".data) ∧
    citeUnwrap "x (https://e.com/a) y".data = "x  https://e.com/a  y".data ∧
    (parseContent "a < b".data true).thought = [] ∧
    (parseContent "a < b".data true).main = "a < b".data := by
  have h := c6_marker_free_parse "x (https://e.com/a) y".data false (by decide) (by decide)
  have h2 := c6_marker_free_parse "a < b".data true (by decide) (by decide)
  exact ⟨h.1, h.2, by decide, h2.1, h2.2.trans (by decide)⟩

/-- C8, counterexample: `<think></think>` contains the opening marker
yet its reasoning is empty — the claimed "empty iff no marker"
equivalence fails right-to-left. -/
theorem c8_whitespace_span_cex :
    occurs thinkOpen "<think></think>".data = true ∧
    (parseContent "<think></think>".data false).thought = [] := by
  refine ⟨by decide, by decide⟩

/-- C8 (amended): the `if` direction of the claimed equivalence holds
as stated — reasoning is empty whenever the input contains neither the
reasoning-span opening marker nor the leaked tool-call marker as a
substring; the `only if` direction fails, since a reasoning span whose
captured text trims to nothing (`<think></think>`) has an opening
marker but empty reasoning. -/
theorem c8_reasoning_empty_if_no_markers (l : List Char) (b : Bool)
    (h1 : occurs thinkOpen l = false) (h2 : occurs leakOpen l = false) :
    (parseContent l b).thought = [] :=
  (parse_no_marker l b h1 h2).1

theorem c8_reasoning_empty_if_no_markers_witness :
    (parseContent "see <br> tags".data false).thought = [] :=
  c8_reasoning_empty_if_no_markers "see <br> tags".data false (by decide) (by decide)

/-- C9: a malformed record anywhere in the event sequence is skipped:
the yielded tokens are exactly those of the same sequence with the
malformed record absent, from any generator state — a single bad event
never aborts the response. -/
theorem c9_malformed_event_skipped (pre post : List SSEvent) (r : Bool) :
    streamTokens (pre ++ SSEvent.malformed :: post) r
      = streamTokens (pre ++ post) r := by
  induction pre generalizing r with
  | nil => rfl
  | cons e pre ih =>
    cases e with
    | done => rfl
    | malformed =>
      simp only [List.cons_append, streamTokens]
      exact ih r
    | data rs cs =>
      by_cases hrs : rs.isEmpty <;> by_cases hcs : cs.isEmpty <;>
        simp [streamTokens, hrs, hcs, ih]

/-- C10: in every activity list, all query-kind activities precede all
url-kind activities (the parser scans all query markers before any url
markers), so the list order is not the textual order when a url marker
precedes a query marker — as the concrete input here shows. -/
theorem c10_queries_precede_urls :
    (∀ (l : List Char) (b : Bool), ∃ qs us,
      (parseContent l b).searchActions = qs ++ us ∧
      (∀ a ∈ qs, a.kind = AKind.query) ∧ (∀ a ∈ us, a.kind = AKind.url)) ∧
    (parseContent ("<think>\"url\": \"https://a.org/page\" " ++
        "\"query\": \"q1\"</think>").data true).searchActions
      = [⟨AKind.query, "q1".data⟩, ⟨AKind.url, "https://a.org/page".data⟩] := by
  refine ⟨fun l b => extractActions_decomp _, by decide⟩

end FreeChat
